import Mathlib

set_option maxHeartbeats 1000000

/-!
Shallow embedding of `src/bit_packing.py` (class `BitPackingArray`).

Modelling conventions:
* Python's `bytearray` is a `List Nat`; the runtime guarantee that each cell
  holds a value in `[0, 255]` is carried as the predicate `bytesValid` where a
  theorem needs it.  Python's implicit range check on `bytearray.__setitem__`
  (raising `ValueError: byte must be in range(0, 256)` on a value above 255) is
  modelled explicitly at the two stores whose argument is not already masked to
  8 bits or provably below 256; those are the stores in the middle-byte loop of
  `set` (which stores the unmasked `new_value`) and the final partial byte of
  `set` (which stores `cleared + new_value`).  All other stores in the source
  are sums of masked pieces bounded by 255, so no check can fire there.
* Python exceptions are the inductive `PyError`; a mutating operation returns
  `Option PyError × BitPackingArray` — the second component is the state after
  the call, which on an error raised in mid-write carries the partial mutation,
  exactly as the Python object would.
* Out-of-range byte reads are modelled with `List.getD _ _ 0`, and out-of-range
  stores with `List.set` (a no-op); under the class invariants every access is
  in bounds, so this choice is never observable in the theorems below.
* The `isinstance(position, int)` sugar is not modelled: positions are always
  coordinate lists (`List Int`), a 1-D position `p` being written `[p]`.
* `dimensions` entries are `Nat` (the constructor rejects every non-positive
  dimension, so negative inputs behave like `0`, which is rejected the same
  way).
-/

namespace BitPacking

/-- Error outcomes of the Python code.  Each constructor corresponds to one
`raise` site (or, for `byteAssignOutOfRange`, to the `ValueError` that
`bytearray.__setitem__` raises for a value above 255), carrying the data
interpolated into the Python error message. -/
inductive PyError where
  | invalidDimension
  | invalidWidth
  | noDimensions
  | arityError (got expected : Nat)
  | indexOutOfRange (depth : Nat) (requested : Int) (dimLength : Nat)
  | valueOutOfRange (maxReported : Nat)
  | byteAssignOutOfRange (value : Nat)
  | unsupportedShape
  | stopIteration
  deriving DecidableEq, Repr

instance {ε α : Type} [DecidableEq ε] [DecidableEq α] : DecidableEq (Except ε α) := fun x y =>
  match x, y with
  | .ok a, .ok b => if h : a = b then isTrue (by rw [h]) else isFalse (by simp [h])
  | .error a, .error b => if h : a = b then isTrue (by rw [h]) else isFalse (by simp [h])
  | .ok _, .error _ => isFalse (by simp)
  | .error _, .ok _ => isFalse (by simp)

/-- The packed array: fixed per-element bit width, shape, and the byte
buffer (`self._array` in the source). -/
structure BitPackingArray where
  bits_per_index : Nat
  dimensions : List Nat
  _array : List Nat
  deriving DecidableEq, Repr

/-- All cells of a byte buffer are genuine bytes.  This is the `bytearray`
type guarantee of Python, an invariant of every reachable state. -/
def bytesValid (arr : List Nat) : Prop := ∀ b ∈ arr, b < 256

instance (arr : List Nat) : Decidable (bytesValid arr) :=
  inferInstanceAs (Decidable (∀ b ∈ arr, b < 256))

/-- Bit `n` of the byte buffer, counting little-endian within and across
bytes: bit `n` lives at bit position `n % 8` of byte `n / 8`. -/
def bitGet (arr : List Nat) (n : Nat) : Bool :=
  Nat.testBit (arr.getD (n / 8) 0) (n % 8)

namespace BitPackingArray

/-- Byte count computed by `__init__` (lines 19–23): `total_bits` starts at
`bits_per_index` and is multiplied by every dimension; the byte count is
`total_bits // 8 + (total_bits % 8 != 0)`. -/
def totalBytesFor (bits_per_index : Nat) (dimensions : List Nat) : Nat :=
  let total_bits := dimensions.foldl (fun acc d => acc * d) bits_per_index
  total_bits / 8 + (if total_bits % 8 ≠ 0 then 1 else 0)

/-- `BitPackingArray.__init__` (lines 8–24). -/
def init (dimensions : List Nat) (bits_per_index : Nat) : Except PyError BitPackingArray :=
  if dimensions.any (fun d => d ≤ 0) then .error .invalidDimension
  else if bits_per_index ≤ 0 then .error .invalidWidth
  else if dimensions.isEmpty then .error .noDimensions
  else .ok ⟨bits_per_index, dimensions, List.replicate (totalBytesFor bits_per_index dimensions) 0⟩

/-- `_index_generator` (lines 27–33), run to completion: resolves every
coordinate (negative values count from the end), failing at the first
coordinate whose resolved value is outside `[0, dim_len)`.  The Python
generator is lazy and is consumed interleaved with the accumulation loop in
`_get_actual_position`, but the observable outcome — the first bad coordinate's
error, or the full resolved list — is the same. -/
def resolveAll (depth : Nat) : List Int → List Nat → Except PyError (List Nat)
  | [], _ => .ok []
  | _ :: _, [] => .ok []
  | pos :: ps, dim :: ds =>
    let actual_position : Int := if 0 ≤ pos then pos else (dim : Int) + pos
    if 0 ≤ actual_position ∧ actual_position < (dim : Int) then
      match resolveAll (depth + 1) ps ds with
      | .error e => .error e
      | .ok rest => .ok (actual_position.toNat :: rest)
    else
      .error (.indexOutOfRange depth pos dim)

/-- The accumulation loop of `_get_actual_position` (lines 47–48):
`which_bit = which_bit * dimensions[i] + pos` for the remaining resolved
coordinates, the i-th resolved coordinate paired with the i-th dimension. -/
def accumulate (which_bit : Nat) : List Nat → List Nat → Nat
  | [], _ => which_bit
  | _ :: _, [] => which_bit
  | pos :: ps, dim :: ds => accumulate (which_bit * dim + pos) ps ds

/-- The linear element index produced by the accumulation loop, as a function
of the resolved coordinates. -/
def linearIndex (resolved : List Nat) (dimensions : List Nat) : Nat :=
  match resolved with
  | [] => 0
  | r :: rs => accumulate r rs dimensions.tail

/-- `_get_actual_position` (lines 36–51): arity check, coordinate resolution,
row-major accumulation, then `divmod(which_bit * bits_per_index, 8)`.
The `.ok []` branch models the `StopIteration` that `next(index_generator)`
raises when there are no dimensions at all (unreachable for a constructed
array). -/
def _get_actual_position (a : BitPackingArray) (position : List Int) :
    Except PyError (Nat × Nat) :=
  if position.length ≠ a.dimensions.length then
    .error (.arityError position.length a.dimensions.length)
  else
    match resolveAll 0 position a.dimensions with
    | .error e => .error e
    | .ok [] => .error .stopIteration
    | .ok (r :: rs) =>
      let which_bit := accumulate r rs a.dimensions.tail * a.bits_per_index
      .ok (which_bit / 8, which_bit % 8)

/-- `zero_bytes` (lines 54–55): reinitialise the buffer to zeros of the same
length. -/
def zero_bytes (a : BitPackingArray) : BitPackingArray :=
  { a with _array := List.replicate a._array.length 0 }

/-- The middle- and last-byte loop of `get` (lines 68–77): consume whole bytes
while at least 8 bits remain, then mask the low `bits_left` bits of one more
byte.  The `while bits_left_to_read >= 8` condition is rendered as the pattern
`bits_left + 8` (first arm, taken exactly when at least 8 bits remain, with
`bits_left` the `bits_left_to_read - 8` of the loop body), which keeps the
recursion structural.  Arguments: buffer, `which_byte`, bits still to read,
`current_bit_position`, accumulated `value`. -/
def readMiddle : List Nat → Nat → Nat → Nat → Nat → Nat
  | arr, which_byte, bits_left + 8, current_bit_position, value =>
    readMiddle arr (which_byte + 1) bits_left (current_bit_position + 8)
      (value + (arr.getD which_byte 0 <<< current_bit_position))
  | arr, which_byte, bits_left, current_bit_position, value =>
    if 0 < bits_left then
      value + ((arr.getD which_byte 0 &&& ((1 <<< bits_left) - 1)) <<< current_bit_position)
    else value

/-- The body of `get` after position resolution (lines 60–79): first partial
byte, then `readMiddle`. -/
def read_span (arr : List Nat) (which_byte byte_start_position bits : Nat) : Nat :=
  let current_bit_position := min (8 - byte_start_position) bits
  let value := (arr.getD which_byte 0 >>> byte_start_position) &&& ((1 <<< current_bit_position) - 1)
  readMiddle arr (which_byte + 1) (bits - current_bit_position) current_bit_position value

/-- `get` (lines 58–79).  It only reads; it returns the decoded value and
touches neither `dimensions` nor the buffer (hence its type has no state
component). -/
def get (a : BitPackingArray) (position : List Int) : Except PyError Nat :=
  match _get_actual_position a position with
  | .error e => .error e
  | .ok (which_byte, byte_start_position) =>
    .ok (read_span a._array which_byte byte_start_position a.bits_per_index)

/-- The middle- and last-byte loop of `set` (lines 102–114).  The middle loop
is the faithful image of the source slip: line 104 computes
`current_value_to_write = new_value & 0b11111111` but line 105 stores the
unmasked `new_value`, so the store raises (`byteAssignOutOfRange`) whenever
`new_value > 255`, leaving the buffer as mutated so far.  The last partial
byte stores `cleared + new_value` where `cleared` keeps the high bits; the two
augmented assignments that produce `cleared` have already been applied to the
byte when the final `+=` would raise, so the error state holds `cleared`.
The `while bits_left_to_set >= 8` condition is rendered as the pattern
`bits_left + 8`, exactly as in `readMiddle`.  Arguments: buffer, `which_byte`,
bits still to write, remaining `new_value`. -/
def writeMiddle : List Nat → Nat → Nat → Nat → Option PyError × List Nat
  | arr, which_byte, bits_left + 8, new_value =>
    if 255 < new_value then
      (some (.byteAssignOutOfRange new_value), arr)
    else
      writeMiddle (arr.set which_byte new_value) (which_byte + 1)
        bits_left (new_value >>> 8)
  | arr, which_byte, bits_left, new_value =>
    if 0 < bits_left then
      let cleared := ((arr.getD which_byte 0) >>> bits_left) <<< bits_left
      if 255 < cleared + new_value then
        (some (.byteAssignOutOfRange (cleared + new_value)), arr.set which_byte cleared)
      else
        (none, arr.set which_byte (cleared + new_value))
    else (none, arr)

/-- The body of `set` after validation and position resolution (lines 87–114):
rebuild the first byte from its preserved low bits, the low bits of the value,
and its preserved high bits, then run `writeMiddle` on what remains. -/
def write_span (arr : List Nat) (which_byte byte_start_position bits new_value : Nat) :
    Option PyError × List Nat :=
  let bits_left_in_first_byte := min (8 - byte_start_position) bits
  let b := arr.getD which_byte 0
  let first_byte_start_bits := b &&& ((1 <<< byte_start_position) - 1)
  let current_value_to_write := new_value &&& ((1 <<< bits_left_in_first_byte) - 1)
  let first_byte :=
    ((((b >>> (byte_start_position + bits_left_in_first_byte)) <<< bits_left_in_first_byte)
        + current_value_to_write) <<< byte_start_position) + first_byte_start_bits
  writeMiddle (arr.set which_byte first_byte) (which_byte + 1)
    (bits - bits_left_in_first_byte) (new_value >>> bits_left_in_first_byte)

/-- `set` (lines 82–114): validate the value (the reported maximum is the
`(1 << bits_per_index) - 1` interpolated into the message), resolve the
position, then `write_span`. -/
def set (a : BitPackingArray) (position : List Int) (new_value : Int) :
    Option PyError × BitPackingArray :=
  if ((1 <<< a.bits_per_index : Nat) : Int) - 1 < new_value ∨ new_value < 0 then
    (some (.valueOutOfRange ((1 <<< a.bits_per_index) - 1)), a)
  else
    match _get_actual_position a position with
    | .error e => (some e, a)
    | .ok (which_byte, byte_start_position) =>
      let r := write_span a._array which_byte byte_start_position a.bits_per_index new_value.toNat
      (r.1, { a with _array := r.2 })

/-- `append` (lines 117–128): 1-D check, byte-count recomputation for one more
element, zero-extension of the buffer (the source's unit-at-a-time `while`
loop, which appends `total_bytes - len` zero bytes and nothing when the buffer
is already long enough), dimension bump, then `set(-1, new_value)`. -/
def append (a : BitPackingArray) (new_value : Int) : Option PyError × BitPackingArray :=
  if 1 < a.dimensions.length then (some .unsupportedShape, a)
  else
    let total_bits := a.bits_per_index * (a.dimensions.headD 0 + 1)
    let total_bytes := total_bits / 8 + (if total_bits % 8 ≠ 0 then 1 else 0)
    let arr := a._array ++ List.replicate (total_bytes - a._array.length) 0
    let a1 : BitPackingArray :=
      { a with dimensions := [a.dimensions.headD 0 + 1], _array := arr }
    set a1 [-1] new_value

end BitPackingArray

/-! ### Byte-level helper lemmas -/

theorem getD_set_eq_ite (l : List Nat) (i j a : Nat) :
    (l.set i a).getD j 0 = if i = j ∧ i < l.length then a else l.getD j 0 := by
  simp only [List.getD_eq_getElem?_getD, List.getElem?_set]
  by_cases h : i = j
  · subst h
    by_cases hl : i < l.length
    · simp [hl]
    · rw [List.getElem?_eq_none (by omega)]
      simp [hl]
  · simp [h]

theorem bytesValid_getD {arr : List Nat} (hb : bytesValid arr) (i : Nat) :
    arr.getD i 0 < 256 := by
  by_cases h : i < arr.length
  · rw [List.getD_eq_getElem?_getD, List.getElem?_eq_getElem h]
    exact hb _ (List.getElem_mem h)
  · rw [List.getD_eq_getElem?_getD, List.getElem?_eq_none (by omega)]
    norm_num

theorem bytesValid_set {arr : List Nat} (hb : bytesValid arr) {v : Nat} (hv : v < 256)
    (i : Nat) : bytesValid (arr.set i v) := by
  intro b hbmem
  rcases List.mem_or_eq_of_mem_set hbmem with h | rfl
  · exact hb _ h
  · exact hv

theorem bitGet_set (arr : List Nat) (i v n : Nat) :
    bitGet (arr.set i v) n =
      if i = n / 8 ∧ i < arr.length then Nat.testBit v (n % 8) else bitGet arr n := by
  unfold bitGet
  rw [getD_set_eq_ite]
  split_ifs with h <;> rfl

theorem bitGet_eq_testBit (arr : List Nat) (n : Nat) :
    bitGet arr n = Nat.testBit (arr.getD (n / 8) 0) (n % 8) := rfl

/-- Bits of `((b >>> bl) <<< bl) + w` (clear the low `bl` bits of `b`, then add
`w < 2 ^ bl`) agree with the bits of `b` from position `bl` upward. -/
theorem testBit_clear_add_low {b w bl j : Nat} (hw : w < 2 ^ bl) (hj : bl ≤ j) :
    Nat.testBit (((b >>> bl) <<< bl) + w) j = Nat.testBit b j := by
  rw [Nat.shiftLeft_eq, Nat.mul_comm, Nat.testBit_mul_pow_two_add _ hw, if_neg (by omega),
      Nat.testBit_shiftRight]
  congr 1
  omega

/-- The first byte that `set` rebuilds (lines 91–97): its bits below
`byte_start_position` and from `byte_start_position + bits_left_in_first_byte`
upward agree with the original byte. -/
theorem testBit_firstByte_outside (b v s k j : Nat) (hj : j < s ∨ s + k ≤ j) :
    Nat.testBit (((((b >>> (s + k)) <<< k) + (v &&& ((1 <<< k) - 1))) <<< s)
        + (b &&& ((1 <<< s) - 1))) j = Nat.testBit b j := by
  rw [Nat.one_shiftLeft, Nat.one_shiftLeft, Nat.and_pow_two_sub_one_eq_mod,
      Nat.and_pow_two_sub_one_eq_mod, Nat.shiftLeft_eq _ s, Nat.mul_comm,
      Nat.testBit_mul_pow_two_add _ (Nat.mod_lt _ (Nat.two_pow_pos s))]
  rcases hj with hj | hj
  · rw [if_pos hj, Nat.testBit_mod_two_pow]
    simp [hj]
  · rw [if_neg (by omega), Nat.shiftLeft_eq _ k, Nat.mul_comm,
        Nat.testBit_mul_pow_two_add _ (Nat.mod_lt _ (Nat.two_pow_pos k)),
        if_neg (by omega), Nat.testBit_shiftRight]
    congr 1
    omega

/-- The rebuilt first byte is again a byte whenever the original was: no
augmented assignment in lines 93–97 can push the cell above 255. -/
theorem firstByte_lt_256 (b v s k : Nat) (hb : b < 256) (hsk : s + k ≤ 8) :
    ((((b >>> (s + k)) <<< k) + (v &&& ((1 <<< k) - 1))) <<< s)
        + (b &&& ((1 <<< s) - 1)) < 256 := by
  have h256 : (256 : Nat) = 2 ^ 8 := by norm_num
  rw [h256]
  apply Nat.lt_pow_two_of_testBit
  intro j hj
  rw [testBit_firstByte_outside b v s k j (Or.inr (by omega))]
  exact Nat.testBit_lt_two_pow (by calc b < 256 := hb
                                     _ = 2 ^ 8 := h256
                                     _ ≤ 2 ^ j := Nat.pow_le_pow_right (by omega) hj)

/-! ### Unfolding lemmas for the loops -/

namespace BitPackingArray

theorem readMiddle_add8 (arr : List Nat) (i bl cur v : Nat) :
    readMiddle arr i (bl + 8) cur v
      = readMiddle arr (i + 1) bl (cur + 8) (v + (arr.getD i 0 <<< cur)) := rfl

theorem readMiddle_lt8 (arr : List Nat) (i bl cur v : Nat) (h : bl < 8) :
    readMiddle arr i bl cur v
      = if 0 < bl then v + ((arr.getD i 0 &&& ((1 <<< bl) - 1)) <<< cur) else v := by
  interval_cases bl <;> simp [readMiddle]

theorem writeMiddle_add8 (arr : List Nat) (i bl v : Nat) :
    writeMiddle arr i (bl + 8) v
      = if 255 < v then (some (.byteAssignOutOfRange v), arr)
        else writeMiddle (arr.set i v) (i + 1) bl (v >>> 8) := rfl

theorem writeMiddle_lt8 (arr : List Nat) (i bl v : Nat) (h : bl < 8) :
    writeMiddle arr i bl v =
      if 0 < bl then
        if 255 < ((arr.getD i 0 >>> bl) <<< bl) + v then
          (some (.byteAssignOutOfRange (((arr.getD i 0 >>> bl) <<< bl) + v)),
           arr.set i ((arr.getD i 0 >>> bl) <<< bl))
        else (none, arr.set i (((arr.getD i 0 >>> bl) <<< bl) + v))
      else (none, arr) := by
  interval_cases bl <;> simp [writeMiddle]

/-! ### Invariant lemmas for the write loop -/

theorem writeMiddle_length (bl : Nat) :
    ∀ arr i v, ((writeMiddle arr i bl v).2).length = arr.length := by
  induction bl using Nat.strong_induction_on with
  | _ bl ih =>
    intro arr i v
    by_cases h8 : 8 ≤ bl
    · obtain ⟨bl', rfl⟩ : ∃ bl', bl = bl' + 8 := ⟨bl - 8, by omega⟩
      rw [writeMiddle_add8]
      split
      · rfl
      · rw [ih bl' (by omega)]
        exact List.length_set ..
    · rw [writeMiddle_lt8 _ _ _ _ (by omega)]
      split_ifs <;> simp

theorem writeMiddle_bytesValid (bl : Nat) :
    ∀ arr i v, bytesValid arr → bytesValid ((writeMiddle arr i bl v).2) := by
  induction bl using Nat.strong_induction_on with
  | _ bl ih =>
    intro arr i v hb
    by_cases h8 : 8 ≤ bl
    · obtain ⟨bl', rfl⟩ : ∃ bl', bl = bl' + 8 := ⟨bl - 8, by omega⟩
      rw [writeMiddle_add8]
      split
      · exact hb
      · next h => exact ih bl' (by omega) _ _ _ (bytesValid_set hb (by omega) i)
    · rw [writeMiddle_lt8 _ _ _ _ (by omega)]
      have hcl : ((arr.getD i 0 >>> bl) <<< bl) ≤ arr.getD i 0 := by
        rw [Nat.shiftRight_eq_div_pow, Nat.shiftLeft_eq]
        exact Nat.div_mul_le_self ..
      have hbi := bytesValid_getD hb i
      split_ifs with h0 hgt
      · exact bytesValid_set hb (by omega) i
      · exact bytesValid_set hb (by omega) i
      · exact hb

theorem writeMiddle_no_valueError (bl : Nat) :
    ∀ arr i v m, (writeMiddle arr i bl v).1 ≠ some (.valueOutOfRange m) := by
  induction bl using Nat.strong_induction_on with
  | _ bl ih =>
    intro arr i v m
    by_cases h8 : 8 ≤ bl
    · obtain ⟨bl', rfl⟩ : ∃ bl', bl = bl' + 8 := ⟨bl - 8, by omega⟩
      rw [writeMiddle_add8]
      split
      · simp
      · exact ih bl' (by omega) _ _ _ _
    · rw [writeMiddle_lt8 _ _ _ _ (by omega)]
      split_ifs <;> simp

/-- Frame property of the middle/last write loop: when the remaining value
fits in the remaining width, every bit outside `[8*i, 8*i + bl)` is unchanged
— also when the loop stops with an error. -/
theorem writeMiddle_frame (bl : Nat) :
    ∀ arr i v, v < 2 ^ bl → ∀ n, n < 8 * i ∨ 8 * i + bl ≤ n →
      bitGet ((writeMiddle arr i bl v).2) n = bitGet arr n := by
  induction bl using Nat.strong_induction_on with
  | _ bl ih =>
    intro arr i v hv n hn
    by_cases h8 : 8 ≤ bl
    · obtain ⟨bl', rfl⟩ : ∃ bl', bl = bl' + 8 := ⟨bl - 8, by omega⟩
      rw [writeMiddle_add8]
      split
      · rfl
      · have hv' : v >>> 8 < 2 ^ bl' := by
          rw [Nat.shiftRight_eq_div_pow]
          rw [Nat.div_lt_iff_lt_mul (by norm_num : (0:Nat) < 2 ^ 8), ← Nat.pow_add]
          exact hv
        rw [ih bl' (by omega) _ _ _ hv' n (by omega), bitGet_set, if_neg (by omega)]
    · rw [writeMiddle_lt8 _ _ _ _ (by omega)]
      split_ifs with h0 hgt
      · rw [bitGet_set]
        split_ifs with hi
        · obtain ⟨hi1, _⟩ := hi
          rw [bitGet_eq_testBit, ← hi1]
          have hz : ((arr.getD i 0 >>> bl) <<< bl)
              = ((arr.getD i 0 >>> bl) <<< bl) + 0 := by omega
          rw [hz]
          exact testBit_clear_add_low (Nat.two_pow_pos bl) (by omega)
        · rfl
      · rw [bitGet_set]
        split_ifs with hi
        · obtain ⟨hi1, _⟩ := hi
          rw [bitGet_eq_testBit, ← hi1]
          exact testBit_clear_add_low hv (by omega)
        · rfl
      · rfl

end BitPackingArray

/-! ### Reading depends only on the bits of the span -/

theorem bitGet_byte (arr : List Nat) (i j : Nat) (hj : j < 8) :
    bitGet arr (8 * i + j) = Nat.testBit (arr.getD i 0) j := by
  rw [bitGet_eq_testBit]
  have hdiv : (8 * i + j) / 8 = i := by omega
  have hmod : (8 * i + j) % 8 = j := by omega
  rw [hdiv, hmod]

theorem byte_eq_of_bitGet_eq {arr1 arr2 : List Nat} (i : Nat)
    (hb1 : bytesValid arr1) (hb2 : bytesValid arr2)
    (h : ∀ j, j < 8 → bitGet arr1 (8 * i + j) = bitGet arr2 (8 * i + j)) :
    arr1.getD i 0 = arr2.getD i 0 := by
  apply Nat.eq_of_testBit_eq
  intro j
  by_cases hj : j < 8
  · have := h j hj
    rw [bitGet_byte _ _ _ hj, bitGet_byte _ _ _ hj] at this
    exact this
  · rw [Nat.testBit_lt_two_pow, Nat.testBit_lt_two_pow]
    · calc arr2.getD i 0 < 256 := bytesValid_getD hb2 i
        _ = 2 ^ 8 := by norm_num
        _ ≤ 2 ^ j := Nat.pow_le_pow_right (by omega) (by omega)
    · calc arr1.getD i 0 < 256 := bytesValid_getD hb1 i
        _ = 2 ^ 8 := by norm_num
        _ ≤ 2 ^ j := Nat.pow_le_pow_right (by omega) (by omega)

namespace BitPackingArray

theorem readMiddle_congr (bl : Nat) :
    ∀ arr1 arr2 i cur v, bytesValid arr1 → bytesValid arr2 →
      (∀ n, 8 * i ≤ n → n < 8 * i + bl → bitGet arr1 n = bitGet arr2 n) →
      readMiddle arr1 i bl cur v = readMiddle arr2 i bl cur v := by
  induction bl using Nat.strong_induction_on with
  | _ bl ih =>
    intro arr1 arr2 i cur v hb1 hb2 hbit
    by_cases h8 : 8 ≤ bl
    · obtain ⟨bl', rfl⟩ : ∃ bl', bl = bl' + 8 := ⟨bl - 8, by omega⟩
      rw [readMiddle_add8, readMiddle_add8]
      rw [byte_eq_of_bitGet_eq i hb1 hb2 (fun j hj => hbit (8 * i + j) (by omega) (by omega))]
      exact ih bl' (by omega) _ _ _ _ _ hb1 hb2 (fun n h1 h2 => hbit n (by omega) (by omega))
    · rw [readMiddle_lt8 _ _ _ _ _ (by omega), readMiddle_lt8 _ _ _ _ _ (by omega)]
      split_ifs with h0
      · have hmask : arr1.getD i 0 &&& ((1 <<< bl) - 1)
            = arr2.getD i 0 &&& ((1 <<< bl) - 1) := by
          rw [Nat.one_shiftLeft, Nat.and_pow_two_sub_one_eq_mod,
              Nat.and_pow_two_sub_one_eq_mod]
          apply Nat.eq_of_testBit_eq
          intro j
          rw [Nat.testBit_mod_two_pow, Nat.testBit_mod_two_pow]
          by_cases hj : j < bl
          · have h := hbit (8 * i + j) (by omega) (by omega)
            rw [bitGet_byte _ _ _ (by omega), bitGet_byte _ _ _ (by omega)] at h
            rw [h]
          · simp [hj]
        rw [hmask]
      · rfl

theorem readMiddle_bound (bl : Nat) :
    ∀ arr i cur v, bytesValid arr → v < 2 ^ cur →
      readMiddle arr i bl cur v < 2 ^ (cur + bl) := by
  induction bl using Nat.strong_induction_on with
  | _ bl ih =>
    intro arr i cur v hb hv
    by_cases h8 : 8 ≤ bl
    · obtain ⟨bl', rfl⟩ : ∃ bl', bl = bl' + 8 := ⟨bl - 8, by omega⟩
      rw [readMiddle_add8]
      have h1 : v + (arr.getD i 0 <<< cur) < 2 ^ (cur + 8) := by
        have hB := bytesValid_getD hb i
        rw [Nat.shiftLeft_eq]
        have h2 : arr.getD i 0 * 2 ^ cur ≤ 255 * 2 ^ cur :=
          Nat.mul_le_mul (by omega) (Nat.le_refl _)
        have hp : 2 ^ (cur + 8) = 2 ^ cur * 256 := by rw [Nat.pow_add]
        omega
      have h3 := ih bl' (by omega) arr (i + 1) (cur + 8) _ hb h1
      rw [show cur + (bl' + 8) = cur + 8 + bl' from by omega]
      exact h3
    · rw [readMiddle_lt8 _ _ _ _ _ (by omega)]
      split_ifs with h0
      · have hmask : arr.getD i 0 &&& ((1 <<< bl) - 1) < 2 ^ bl := by
          rw [Nat.one_shiftLeft, Nat.and_pow_two_sub_one_eq_mod]
          exact Nat.mod_lt _ (Nat.two_pow_pos bl)
        rw [Nat.shiftLeft_eq, Nat.pow_add, Nat.mul_comm (2 ^ cur)]
        have h2 : (arr.getD i 0 &&& ((1 <<< bl) - 1)) * 2 ^ cur ≤ (2 ^ bl - 1) * 2 ^ cur :=
          Nat.mul_le_mul (by omega) (Nat.le_refl _)
        have e1 : (2 ^ bl - 1) * 2 ^ cur = 2 ^ bl * 2 ^ cur - 2 ^ cur := by
          rw [Nat.sub_mul, Nat.one_mul]
        have e2 : 2 ^ cur ≤ 2 ^ bl * 2 ^ cur :=
          Nat.le_mul_of_pos_left _ (Nat.two_pow_pos bl)
        omega
      · calc v < 2 ^ cur := hv
          _ ≤ 2 ^ (cur + bl) := Nat.pow_le_pow_right (by omega) (by omega)

theorem readMiddle_nil (bl : Nat) : ∀ i cur v, readMiddle [] i bl cur v = v := by
  induction bl using Nat.strong_induction_on with
  | _ bl ih =>
    intro i cur v
    by_cases h8 : 8 ≤ bl
    · obtain ⟨bl', rfl⟩ : ∃ bl', bl = bl' + 8 := ⟨bl - 8, by omega⟩
      rw [readMiddle_add8]
      have hz : ([] : List Nat).getD i 0 = 0 := rfl
      rw [hz, Nat.zero_shiftLeft, Nat.add_zero]
      exact ih bl' (by omega) _ _ _
    · rw [readMiddle_lt8 _ _ _ _ _ (by omega)]
      have hz : ([] : List Nat).getD i 0 = 0 := rfl
      split_ifs
      · rw [hz, Nat.zero_and, Nat.zero_shiftLeft, Nat.add_zero]
      · rfl

theorem read_span_congr {arr1 arr2 : List Nat} (i s w : Nat) (hs : s < 8)
    (hb1 : bytesValid arr1) (hb2 : bytesValid arr2)
    (hbit : ∀ n, 8 * i + s ≤ n → n < 8 * i + s + w → bitGet arr1 n = bitGet arr2 n) :
    read_span arr1 i s w = read_span arr2 i s w := by
  unfold read_span
  show readMiddle arr1 (i + 1) (w - min (8 - s) w) (min (8 - s) w)
      ((arr1.getD i 0 >>> s) &&& ((1 <<< min (8 - s) w) - 1))
    = readMiddle arr2 (i + 1) (w - min (8 - s) w) (min (8 - s) w)
      ((arr2.getD i 0 >>> s) &&& ((1 <<< min (8 - s) w) - 1))
  have hc : min (8 - s) w ≤ w := Nat.min_le_right _ _
  have hc8 : min (8 - s) w ≤ 8 - s := Nat.min_le_left _ _
  have hor := min_choice (8 - s) w
  have hfirst : (arr1.getD i 0 >>> s) &&& ((1 <<< min (8 - s) w) - 1)
      = (arr2.getD i 0 >>> s) &&& ((1 <<< min (8 - s) w) - 1) := by
    rw [Nat.one_shiftLeft, Nat.and_pow_two_sub_one_eq_mod, Nat.and_pow_two_sub_one_eq_mod]
    apply Nat.eq_of_testBit_eq
    intro j
    rw [Nat.testBit_mod_two_pow, Nat.testBit_mod_two_pow, Nat.testBit_shiftRight,
        Nat.testBit_shiftRight]
    by_cases hj : j < min (8 - s) w
    · have h := hbit (8 * i + (s + j)) (by omega) (by omega)
      rw [bitGet_byte _ _ _ (by omega), bitGet_byte _ _ _ (by omega)] at h
      rw [h]
    · simp [hj]
  rw [hfirst]
  exact readMiddle_congr _ _ _ _ _ _ hb1 hb2
    (fun n h1 h2 => hbit n (by omega) (by omega))

theorem read_span_bound {arr : List Nat} (i s w : Nat) (hb : bytesValid arr) :
    read_span arr i s w < 2 ^ w := by
  unfold read_span
  show readMiddle arr (i + 1) (w - min (8 - s) w) (min (8 - s) w)
      ((arr.getD i 0 >>> s) &&& ((1 <<< min (8 - s) w) - 1)) < 2 ^ w
  have h1 : (arr.getD i 0 >>> s) &&& ((1 <<< min (8 - s) w) - 1) < 2 ^ min (8 - s) w := by
    rw [Nat.one_shiftLeft, Nat.and_pow_two_sub_one_eq_mod]
    exact Nat.mod_lt _ (Nat.two_pow_pos _)
  have h2 := readMiddle_bound (w - min (8 - s) w) arr (i + 1) (min (8 - s) w) _ hb h1
  rw [show min (8 - s) w + (w - min (8 - s) w) = w from by
    have := Nat.min_le_right (8 - s) w; omega] at h2
  exact h2

theorem read_span_nil (i s w : Nat) : read_span [] i s w = 0 := by
  unfold read_span
  show readMiddle [] (i + 1) (w - min (8 - s) w) (min (8 - s) w)
      ((([] : List Nat).getD i 0 >>> s) &&& ((1 <<< min (8 - s) w) - 1)) = 0
  rw [readMiddle_nil]
  have hz : ([] : List Nat).getD i 0 = 0 := rfl
  rw [hz, Nat.zero_shiftRight, Nat.zero_and]

/-! ### Lemmas about `write_span` -/

theorem write_span_length (arr : List Nat) (i s w v : Nat) :
    ((write_span arr i s w v).2).length = arr.length := by
  simp only [write_span]
  rw [writeMiddle_length]
  exact List.length_set ..

theorem write_span_bytesValid {arr : List Nat} (hb : bytesValid arr) (i s w v : Nat)
    (hs8 : s < 8) : bytesValid ((write_span arr i s w v).2) := by
  simp only [write_span]
  apply writeMiddle_bytesValid
  apply bytesValid_set hb _ i
  have hmin := Nat.min_le_left (8 - s) w
  exact firstByte_lt_256 _ _ _ _ (bytesValid_getD hb i) (by omega)

theorem write_span_no_valueError (arr : List Nat) (i s w v m : Nat) :
    (write_span arr i s w v).1 ≠ some (.valueOutOfRange m) := by
  simp only [write_span]
  exact writeMiddle_no_valueError _ _ _ _ _

/-- Frame property of `write_span`: for an in-range value, every bit outside
the target span `[8*i + s, 8*i + s + w)` keeps its prior value, also when the
write stops with an error part-way. -/
theorem write_span_frame {arr : List Nat} (i s w v : Nat) (hs : s < 8) (hv : v < 2 ^ w) :
    ∀ n, n < 8 * i + s ∨ 8 * i + s + w ≤ n →
      bitGet ((write_span arr i s w v).2) n = bitGet arr n := by
  intro n hn
  simp only [write_span]
  have hmin8 := Nat.min_le_left (8 - s) w
  have hminw := Nat.min_le_right (8 - s) w
  have hor := min_choice (8 - s) w
  set k := min (8 - s) w with hk
  have hv' : v >>> k < 2 ^ (w - k) := by
    rw [Nat.shiftRight_eq_div_pow, Nat.div_lt_iff_lt_mul (Nat.two_pow_pos k), ← Nat.pow_add]
    rw [show w - k + k = w from by omega]
    exact hv
  rw [writeMiddle_frame (w - k) _ (i + 1) _ hv' n (by omega)]
  rw [bitGet_set]
  split_ifs with hi
  · obtain ⟨hi1, _⟩ := hi
    rw [bitGet_eq_testBit, ← hi1]
    exact testBit_firstByte_outside _ _ _ _ _ (by omega)
  · rfl

/-! ### Lemmas about coordinate resolution -/

theorem resolveAll_cons (depth : Nat) (p : Int) (ps : List Int) (d : Nat) (ds : List Nat) :
    resolveAll depth (p :: ps) (d :: ds) =
      if 0 ≤ (if 0 ≤ p then p else (d : Int) + p)
          ∧ (if 0 ≤ p then p else (d : Int) + p) < (d : Int) then
        match resolveAll (depth + 1) ps ds with
        | .error e => .error e
        | .ok rest => .ok ((if 0 ≤ p then p else (d : Int) + p).toNat :: rest)
      else .error (.indexOutOfRange depth p d) := rfl

theorem resolveAll_ok_length :
    ∀ (ps : List Int) (ds rs : List Nat) (depth : Nat),
      resolveAll depth ps ds = .ok rs → rs.length = min ps.length ds.length := by
  intro ps
  induction ps with
  | nil =>
    intro ds rs depth h
    simp only [resolveAll] at h
    obtain rfl := Except.ok.inj h
    simp
  | cons p ps ih =>
    intro ds rs depth h
    cases ds with
    | nil =>
      simp only [resolveAll] at h
      obtain rfl := Except.ok.inj h
      simp
    | cons d ds =>
      rw [resolveAll_cons] at h
      set A : Int := if 0 ≤ p then p else (d : Int) + p with hA
      split_ifs at h with hc
      cases hrec : resolveAll (depth + 1) ps ds with
      | error e => rw [hrec] at h; exact absurd h (by simp)
      | ok rest =>
        rw [hrec] at h
        obtain rfl := Except.ok.inj h
        have := ih ds rest (depth + 1) hrec
        simp only [List.length_cons, this]
        omega

theorem resolveAll_ok_bounds :
    ∀ (ps : List Int) (ds rs : List Nat) (depth : Nat),
      resolveAll depth ps ds = .ok rs →
      ∀ j, j < rs.length → rs.getD j 0 < ds.getD j 0 := by
  intro ps
  induction ps with
  | nil =>
    intro ds rs depth h
    simp only [resolveAll] at h
    obtain rfl := Except.ok.inj h
    simp
  | cons p ps ih =>
    intro ds rs depth h
    cases ds with
    | nil =>
      simp only [resolveAll] at h
      obtain rfl := Except.ok.inj h
      simp
    | cons d ds =>
      rw [resolveAll_cons] at h
      set A : Int := if 0 ≤ p then p else (d : Int) + p with hA
      split_ifs at h with hc
      cases hrec : resolveAll (depth + 1) ps ds with
      | error e => rw [hrec] at h; exact absurd h (by simp)
      | ok rest =>
        rw [hrec] at h
        obtain rfl := Except.ok.inj h
        intro j hj
        cases j with
        | zero =>
          simp only [List.getD_cons_zero]
          omega
        | succ j =>
          simp only [List.getD_cons_succ]
          exact ih ds rest (depth + 1) hrec j (by simpa using hj)

theorem resolveAll_ok_getD :
    ∀ (ps : List Int) (ds rs : List Nat) (depth : Nat),
      resolveAll depth ps ds = .ok rs →
      ∀ j, j < rs.length →
        (rs.getD j 0 : Int)
          = if 0 ≤ ps.getD j 0 then ps.getD j 0
            else (ds.getD j 0 : Int) + ps.getD j 0 := by
  intro ps
  induction ps with
  | nil =>
    intro ds rs depth h
    simp only [resolveAll] at h
    obtain rfl := Except.ok.inj h
    simp
  | cons p ps ih =>
    intro ds rs depth h
    cases ds with
    | nil =>
      simp only [resolveAll] at h
      obtain rfl := Except.ok.inj h
      simp
    | cons d ds =>
      rw [resolveAll_cons] at h
      set A : Int := if 0 ≤ p then p else (d : Int) + p with hA
      split_ifs at h with hc
      cases hrec : resolveAll (depth + 1) ps ds with
      | error e => rw [hrec] at h; exact absurd h (by simp)
      | ok rest =>
        rw [hrec] at h
        obtain rfl := Except.ok.inj h
        intro j hj
        cases j with
        | zero =>
          simp only [List.getD_cons_zero]
          rw [← hA]
          exact Int.toNat_of_nonneg hc.1
        | succ j =>
          simp only [List.getD_cons_succ]
          exact ih ds rest (depth + 1) hrec j (by simpa using hj)

theorem resolveAll_error_shape :
    ∀ (ps : List Int) (ds : List Nat) (depth : Nat) (e : PyError),
      resolveAll depth ps ds = .error e →
      ∃ j pv dv, e = .indexOutOfRange j pv dv := by
  intro ps
  induction ps with
  | nil => intro ds depth e h; exact absurd h (by simp [resolveAll])
  | cons p ps ih =>
    intro ds depth e h
    cases ds with
    | nil => exact absurd h (by simp [resolveAll])
    | cons d ds =>
      rw [resolveAll_cons] at h
      set A : Int := if 0 ≤ p then p else (d : Int) + p with hA
      split_ifs at h with hc
      · cases hrec : resolveAll (depth + 1) ps ds with
        | error e' =>
          rw [hrec] at h
          obtain rfl := Except.error.inj h
          exact ih ds (depth + 1) _ hrec
        | ok rest => rw [hrec] at h; exact absurd h (by simp)
      · exact ⟨depth, p, d, (Except.error.inj h).symm⟩

/-! ### Row-major accumulation: decomposition, bound, injectivity -/

theorem accumulate_decompose :
    ∀ (ps ds : List Nat), ps.length = ds.length → ∀ init,
      accumulate init ps ds = init * ds.prod + accumulate 0 ps ds := by
  intro ps
  induction ps with
  | nil =>
    intro ds h init
    cases ds with
    | nil => simp [accumulate]
    | cons d ds => simp at h
  | cons p ps ih =>
    intro ds h init
    cases ds with
    | nil => simp at h
    | cons d ds =>
      simp only [accumulate]
      rw [ih ds (by simpa using h) (init * d + p), ih ds (by simpa using h) (0 * d + p),
          List.prod_cons]
      ring

theorem accumulate_lt_prod :
    ∀ (ps ds : List Nat), ps.length = ds.length →
      (∀ j, j < ps.length → ps.getD j 0 < ds.getD j 0) →
      accumulate 0 ps ds < ds.prod := by
  intro ps
  induction ps with
  | nil =>
    intro ds h _
    cases ds with
    | nil => simp [accumulate]
    | cons d ds => simp at h
  | cons p ps ih =>
    intro ds h hb
    cases ds with
    | nil => simp at h
    | cons d ds =>
      simp only [accumulate, Nat.zero_mul, Nat.zero_add]
      rw [accumulate_decompose ps ds (by simpa using h) p, List.prod_cons]
      have h0 := hb 0 (by simp)
      simp only [List.getD_cons_zero] at h0
      have hrest := ih ds (by simpa using h) (fun j hj => by
        have h1 := hb (j + 1) (by simp only [List.length_cons]; omega)
        simpa only [List.getD_cons_succ] using h1)
      calc p * ds.prod + accumulate 0 ps ds < p * ds.prod + ds.prod := by omega
        _ = (p + 1) * ds.prod := by ring
        _ ≤ d * ds.prod := Nat.mul_le_mul (by omega) (Nat.le_refl _)

theorem accumulate_inj :
    ∀ (ps qs ds : List Nat), ps.length = ds.length → qs.length = ds.length →
      (∀ j, j < ps.length → ps.getD j 0 < ds.getD j 0) →
      (∀ j, j < qs.length → qs.getD j 0 < ds.getD j 0) →
      accumulate 0 ps ds = accumulate 0 qs ds → ps = qs := by
  intro ps
  induction ps with
  | nil =>
    intro qs ds h1 h2 _ _ _
    cases ds with
    | nil => cases qs with
      | nil => rfl
      | cons q qs => simp at h2
    | cons d ds => simp at h1
  | cons p ps ih =>
    intro qs ds h1 h2 hbp hbq heq
    cases ds with
    | nil => simp at h1
    | cons d ds =>
      cases qs with
      | nil => simp at h2
      | cons q qs =>
        have hlp : ps.length = ds.length := by simpa using h1
        have hlq : qs.length = ds.length := by simpa using h2
        have hbp' : ∀ j, j < ps.length → ps.getD j 0 < ds.getD j 0 := fun j hj => by
          have h3 := hbp (j + 1) (by simp only [List.length_cons]; omega)
          simpa only [List.getD_cons_succ] using h3
        have hbq' : ∀ j, j < qs.length → qs.getD j 0 < ds.getD j 0 := fun j hj => by
          have h3 := hbq (j + 1) (by simp only [List.length_cons]; omega)
          simpa only [List.getD_cons_succ] using h3
        have hap := accumulate_lt_prod ps ds hlp hbp'
        have haq := accumulate_lt_prod qs ds hlq hbq'
        have hP : 0 < ds.prod := by omega
        simp only [accumulate, Nat.zero_mul, Nat.zero_add] at heq
        rw [accumulate_decompose ps ds hlp p, accumulate_decompose qs ds hlq q,
            Nat.mul_comm p, Nat.mul_comm q] at heq
        have hpq : p = q := by
          have hdiv := congrArg (fun x => x / ds.prod) heq
          simp only [Nat.mul_add_div hP, Nat.div_eq_of_lt hap, Nat.div_eq_of_lt haq] at hdiv
          omega
        subst hpq
        have heq' : accumulate 0 ps ds = accumulate 0 qs ds := by omega
        rw [ih qs ds hlp hlq hbp' hbq' heq']

/-- Distinct resolved coordinate vectors (componentwise in range) are mapped
to distinct linear element indices by the accumulation loop. -/
theorem linearIndex_inj (rs qs ds : List Nat) (hrl : rs.length = ds.length)
    (hql : qs.length = ds.length) (hd : ds ≠ []) (hne : rs ≠ qs)
    (hbr : ∀ j, j < rs.length → rs.getD j 0 < ds.getD j 0)
    (hbq : ∀ j, j < qs.length → qs.getD j 0 < ds.getD j 0) :
    linearIndex rs ds ≠ linearIndex qs ds := by
  cases ds with
  | nil => exact absurd rfl hd
  | cons d ds =>
    cases rs with
    | nil => simp at hrl
    | cons r rs =>
      cases qs with
      | nil => simp at hql
      | cons q qs =>
        intro heq
        apply hne
        simp only [linearIndex, List.tail_cons] at heq
        have hlr : rs.length = ds.length := by simpa using hrl
        have hlq : qs.length = ds.length := by simpa using hql
        have hbr' : ∀ j, j < rs.length → rs.getD j 0 < ds.getD j 0 := fun j hj => by
          have h3 := hbr (j + 1) (by simp only [List.length_cons]; omega)
          simpa only [List.getD_cons_succ] using h3
        have hbq' : ∀ j, j < qs.length → qs.getD j 0 < ds.getD j 0 := fun j hj => by
          have h3 := hbq (j + 1) (by simp only [List.length_cons]; omega)
          simpa only [List.getD_cons_succ] using h3
        have hap := accumulate_lt_prod rs ds hlr hbr'
        have haq := accumulate_lt_prod qs ds hlq hbq'
        have hP : 0 < ds.prod := by omega
        rw [accumulate_decompose rs ds hlr r, accumulate_decompose qs ds hlq q,
            Nat.mul_comm r, Nat.mul_comm q] at heq
        have hpq : r = q := by
          have hdiv := congrArg (fun x => x / ds.prod) heq
          simp only [Nat.mul_add_div hP, Nat.div_eq_of_lt hap, Nat.div_eq_of_lt haq] at hdiv
          omega
        subst hpq
        have heq' : accumulate 0 rs ds = accumulate 0 qs ds := by omega
        rw [accumulate_inj rs qs ds hlr hlq hbr' hbq' heq']

/-! ### Characterisation of `_get_actual_position` and structure of `set` -/

theorem gap_ok (a : BitPackingArray) (p : List Int) (rs : List Nat)
    (hl : p.length = a.dimensions.length) (hd : a.dimensions ≠ [])
    (hr : resolveAll 0 p a.dimensions = .ok rs) :
    _get_actual_position a p =
      .ok (linearIndex rs a.dimensions * a.bits_per_index / 8,
           linearIndex rs a.dimensions * a.bits_per_index % 8) := by
  unfold _get_actual_position
  rw [if_neg (by omega), hr]
  cases rs with
  | nil =>
    exfalso
    have hlen := resolveAll_ok_length p a.dimensions [] 0 hr
    have hd' : a.dimensions.length ≠ 0 := fun h => hd (List.length_eq_zero.mp h)
    simp only [List.length_nil] at hlen
    omega
  | cons r rs' => rfl

theorem gap_ok_snd_lt (a : BitPackingArray) (p : List Int) (i s : Nat)
    (h : _get_actual_position a p = .ok (i, s)) : s < 8 := by
  unfold _get_actual_position at h
  split_ifs at h
  cases hr : resolveAll 0 p a.dimensions with
  | error e => rw [hr] at h; exact absurd h (by simp)
  | ok rs =>
    rw [hr] at h
    cases rs with
    | nil => exact absurd h (by simp)
    | cons r rs' =>
      have h2 := (Prod.mk.injEq .. ▸ Except.ok.inj h).2
      omega

theorem set_dims_bits (a : BitPackingArray) (p : List Int) (v : Int) :
    (a.set p v).2.dimensions = a.dimensions
      ∧ (a.set p v).2.bits_per_index = a.bits_per_index := by
  unfold set
  split_ifs
  · exact ⟨rfl, rfl⟩
  · cases h : _get_actual_position a p with
    | error e => exact ⟨rfl, rfl⟩
    | ok addr => rcases addr with ⟨i, s⟩; exact ⟨rfl, rfl⟩

theorem set_array_length (a : BitPackingArray) (p : List Int) (v : Int) :
    (a.set p v).2._array.length = a._array.length := by
  unfold set
  split_ifs
  · rfl
  · cases h : _get_actual_position a p with
    | error e => rfl
    | ok addr =>
      rcases addr with ⟨i, s⟩
      exact write_span_length ..

theorem set_bytesValid {a : BitPackingArray} (hb : bytesValid a._array)
    (p : List Int) (v : Int) : bytesValid ((a.set p v).2)._array := by
  unfold set
  split_ifs
  · exact hb
  · cases h : _get_actual_position a p with
    | error e => exact hb
    | ok addr =>
      rcases addr with ⟨i, s⟩
      exact write_span_bytesValid hb _ _ _ _ (gap_ok_snd_lt a p i s h)

/-- An in-range value, as checked at the top of `set`, is below
`2 ^ bits_per_index` after conversion to `Nat`. -/
theorem toNat_lt_of_in_range {w : Nat} {v : Int}
    (hval : ¬(((1 <<< w : Nat) : Int) - 1 < v ∨ v < 0)) : v.toNat < 2 ^ w := by
  push_neg at hval
  obtain ⟨h1, h2⟩ := hval
  rw [Nat.one_shiftLeft] at h1
  have hpos : 0 < 2 ^ w := Nat.two_pow_pos w
  omega

/-- Frame property of `set`: whatever the outcome, every bit of storage
outside the target element's span keeps its prior value. -/
theorem set_frame (a : BitPackingArray) (p : List Int) (v : Int) (rs : List Nat)
    (hl : p.length = a.dimensions.length) (hd : a.dimensions ≠ [])
    (hr : resolveAll 0 p a.dimensions = .ok rs) :
    ∀ n, n < linearIndex rs a.dimensions * a.bits_per_index ∨
         linearIndex rs a.dimensions * a.bits_per_index + a.bits_per_index ≤ n →
      bitGet ((a.set p v).2)._array n = bitGet a._array n := by
  intro n hn
  unfold set
  split_ifs with hval
  · rfl
  · rw [gap_ok a p rs hl hd hr]
    show bitGet ((write_span a._array (linearIndex rs a.dimensions * a.bits_per_index / 8)
        (linearIndex rs a.dimensions * a.bits_per_index % 8) a.bits_per_index v.toNat).2) n
      = bitGet a._array n
    apply write_span_frame _ _ _ _ (Nat.mod_lt _ (by norm_num)) (toNat_lt_of_in_range hval) n
    omega

theorem get_eq_read_span (a : BitPackingArray) (p : List Int) (rs : List Nat)
    (hl : p.length = a.dimensions.length) (hd : a.dimensions ≠ [])
    (hr : resolveAll 0 p a.dimensions = .ok rs) :
    a.get p = .ok (read_span a._array
      (linearIndex rs a.dimensions * a.bits_per_index / 8)
      (linearIndex rs a.dimensions * a.bits_per_index % 8) a.bits_per_index) := by
  unfold get
  rw [gap_ok a p rs hl hd hr]

/-- C3.  Non-interference: for every `BitPackingArray` and every in-range
write, `set` changes only the bits of the target element's span — every bit of
storage outside `[element_index * bits_per_index, (element_index + 1) *
bits_per_index)` keeps its prior value — and therefore the value read back by
`get` at every other valid coordinate (one resolving to a different coordinate
vector) is unchanged. -/
theorem set_noninterference (a : BitPackingArray) (p q : List Int) (v : Int)
    (rp rq : List Nat)
    (hd : a.dimensions ≠ [])
    (hb : bytesValid a._array)
    (hlp : p.length = a.dimensions.length)
    (hlq : q.length = a.dimensions.length)
    (hp : resolveAll 0 p a.dimensions = .ok rp)
    (hq : resolveAll 0 q a.dimensions = .ok rq)
    (hne : rp ≠ rq) :
    (∀ n, n < linearIndex rp a.dimensions * a.bits_per_index ∨
          linearIndex rp a.dimensions * a.bits_per_index + a.bits_per_index ≤ n →
        bitGet ((a.set p v).2)._array n = bitGet a._array n)
    ∧ (a.set p v).2.get q = a.get q := by
  refine ⟨set_frame a p v rp hlp hd hp, ?_⟩
  have hdims := (set_dims_bits a p v).1
  have hbits := (set_dims_bits a p v).2
  have hlrp : rp.length = a.dimensions.length := by
    have := resolveAll_ok_length p a.dimensions rp 0 hp
    omega
  have hlrq : rq.length = a.dimensions.length := by
    have := resolveAll_ok_length q a.dimensions rq 0 hq
    omega
  have hbrp := resolveAll_ok_bounds p a.dimensions rp 0 hp
  have hbrq := resolveAll_ok_bounds q a.dimensions rq 0 hq
  have hEne := linearIndex_inj rp rq a.dimensions hlrp hlrq hd hne hbrp hbrq
  have hdisj : linearIndex rp a.dimensions * a.bits_per_index + a.bits_per_index
        ≤ linearIndex rq a.dimensions * a.bits_per_index
      ∨ linearIndex rq a.dimensions * a.bits_per_index + a.bits_per_index
        ≤ linearIndex rp a.dimensions * a.bits_per_index := by
    rcases Nat.lt_or_ge (linearIndex rp a.dimensions) (linearIndex rq a.dimensions)
      with hlt | hge
    · left
      calc linearIndex rp a.dimensions * a.bits_per_index + a.bits_per_index
          = (linearIndex rp a.dimensions + 1) * a.bits_per_index := by ring
        _ ≤ linearIndex rq a.dimensions * a.bits_per_index :=
            Nat.mul_le_mul (by omega) (Nat.le_refl _)
    · right
      have hlt : linearIndex rq a.dimensions < linearIndex rp a.dimensions := by omega
      calc linearIndex rq a.dimensions * a.bits_per_index + a.bits_per_index
          = (linearIndex rq a.dimensions + 1) * a.bits_per_index := by ring
        _ ≤ linearIndex rp a.dimensions * a.bits_per_index :=
            Nat.mul_le_mul (by omega) (Nat.le_refl _)
  rw [get_eq_read_span a q rq hlq hd hq]
  rw [get_eq_read_span (a.set p v).2 q rq (by rw [hdims]; exact hlq)
        (by rw [hdims]; exact hd) (by rw [hdims]; exact hq)]
  rw [hdims, hbits]
  refine congrArg Except.ok ?_
  apply read_span_congr _ _ _ (Nat.mod_lt _ (by norm_num)) (set_bytesValid hb p v) hb
  intro n h1 h2
  apply set_frame a p v rp hlp hd hp n
  have e8 : 8 * (linearIndex rq a.dimensions * a.bits_per_index / 8)
      + linearIndex rq a.dimensions * a.bits_per_index % 8
      = linearIndex rq a.dimensions * a.bits_per_index := by omega
  omega

/-- Witness for `set_noninterference`: on a five-element 3-bit array, writing
element 0 leaves the bits of element 1's span and the value of element 1
untouched. -/
theorem set_noninterference_witness :
    (BitPackingArray.set ⟨3, [5], [0, 0]⟩ [0] 5).2.get [1]
        = BitPackingArray.get ⟨3, [5], [0, 0]⟩ [1]
    ∧ bitGet ((BitPackingArray.set ⟨3, [5], [0, 0]⟩ [0] 5).2)._array 4
        = bitGet (BitPackingArray.mk 3 [5] [0, 0])._array 4 :=
  ⟨(set_noninterference ⟨3, [5], [0, 0]⟩ [0] [1] 5 [0] [1] (by decide) (by decide)
      (by decide) (by decide) (by decide) (by decide) (by decide)).2,
   (set_noninterference ⟨3, [5], [0, 0]⟩ [0] [1] 5 [0] [1] (by decide) (by decide)
      (by decide) (by decide) (by decide) (by decide) (by decide)).1 4 (by decide)⟩

/-! ### The middle-byte store bug of `set` -/

/-- C1.  The claimed round-trip (set then get returns the value, for every
width from 1 to 32) fails on the code: at `bits_per_index = 17`, on a fresh
one-element array, `set` of the in-range value `65536 = 2^16` raises the
bytearray range error from the unmasked middle-byte store (line 105 stores
`new_value` instead of the computed `current_value_to_write`), so set-then-get
cannot return the value.  The second conjunct records that the input is
in-range for the claim, the third that the position is valid. -/
theorem set_roundtrip_fails_at_width17 :
    (BitPackingArray.set ⟨17, [1], [0, 0, 0]⟩ [0] 65536).1
      = some (.byteAssignOutOfRange 256)
    ∧ (65536 : Int) ≤ ((1 <<< 17 : Nat) : Int) - 1
    ∧ BitPackingArray._get_actual_position ⟨17, [1], [0, 0, 0]⟩ [0] = .ok (0, 0) := by
  decide

/-- C2.  The claim that `set` unconditionally completes, the middle-byte step
storing exactly the next 8 low-order bits, fails on the code: line 104
computes `current_value_to_write = new_value & 0b11111111` but line 105 stores
the unmasked `new_value`.  At `bits_per_index = 24` with the maximum value
`2^24 - 1` the second store receives `65535`, outside `[0, 255]`, and `set`
raises instead of completing. -/
theorem set_middle_store_gets_unmasked_value :
    (BitPackingArray.set ⟨24, [1], [0, 0, 0]⟩ [0] 16777215).1
      = some (.byteAssignOutOfRange 65535)
    ∧ (16777215 : Int) ≤ ((1 <<< 24 : Nat) : Int) - 1 := by
  decide

/-! ### Value validation in `set` -/

theorem gap_no_valueError (a : BitPackingArray) (p : List Int) (m : Nat) :
    _get_actual_position a p ≠ .error (.valueOutOfRange m) := by
  unfold _get_actual_position
  split_ifs
  · simp
  · cases hr : resolveAll 0 p a.dimensions with
    | error e =>
      obtain ⟨j, pv, dv, rfl⟩ := resolveAll_error_shape p a.dimensions 0 e hr
      simp
    | ok rs =>
      cases rs with
      | nil => simp
      | cons r rs' => simp

/-- C4.  `set(position, value)` raises `ValueOutOfRange` if and only if the
value is negative or exceeds `2^bits_per_index - 1`; the error carries the
maximum `(1 << bits_per_index) - 1`; the check precedes position resolution
(the equivalence holds for every position, valid or not), and when it fires no
byte of storage is modified. -/
theorem set_value_check (a : BitPackingArray) (p : List Int) (v : Int) :
    ((a.set p v).1 = some (.valueOutOfRange ((1 <<< a.bits_per_index) - 1))
        ↔ (((1 <<< a.bits_per_index : Nat) : Int) - 1 < v ∨ v < 0))
    ∧ ((((1 <<< a.bits_per_index : Nat) : Int) - 1 < v ∨ v < 0) → (a.set p v).2 = a) := by
  constructor
  · constructor
    · intro h
      by_contra hcon
      unfold set at h
      rw [if_neg hcon] at h
      cases hg : _get_actual_position a p with
      | error e =>
        rw [hg] at h
        have he := Option.some.inj h
        exact absurd (he ▸ hg) (gap_no_valueError a p _)
      | ok addr =>
        rcases addr with ⟨i, s⟩
        rw [hg] at h
        exact absurd h
          (write_span_no_valueError a._array i s a.bits_per_index v.toNat
            ((1 <<< a.bits_per_index) - 1))
    · intro h
      unfold set
      rw [if_pos h]
  · intro h
    unfold set
    rw [if_pos h]

/-- Witness for `set_value_check`, on the spec's literal example
`PackedArray(4, 3).set(0, 8)`: the reported maximum is 7 and the buffer is
untouched. -/
theorem set_value_check_witness :
    (BitPackingArray.set ⟨3, [4], [0, 0]⟩ [0] 8).1 = some (.valueOutOfRange 7)
    ∧ (BitPackingArray.set ⟨3, [4], [0, 0]⟩ [0] 8).2 = ⟨3, [4], [0, 0]⟩ :=
  ⟨(set_value_check ⟨3, [4], [0, 0]⟩ [0] 8).1.mpr (by decide),
   (set_value_check ⟨3, [4], [0, 0]⟩ [0] 8).2 (by decide)⟩

/-! ### The storage-length invariant -/

/-- The storage-length invariant of the class: the byte buffer has exactly the
byte count that `__init__` computes for the current width and shape. -/
def lenInvariant (a : BitPackingArray) : Prop :=
  a._array.length = totalBytesFor a.bits_per_index a.dimensions

theorem foldl_mul_eq (w : Nat) (ds : List Nat) :
    ds.foldl (fun acc d => acc * d) w = w * ds.prod := by
  induction ds generalizing w with
  | nil => simp
  | cons d ds ih =>
    rw [List.foldl_cons, ih, List.prod_cons]
    ring

/-- The code's byte count `total_bits // 8 + (total_bits % 8 != 0)` is the
ceiling `ceil(bits_per_index * product(dimensions) / 8)`. -/
theorem totalBytesFor_eq_ceil (w : Nat) (ds : List Nat) :
    totalBytesFor w ds = (w * ds.prod + 7) / 8 := by
  simp only [totalBytesFor]
  rw [foldl_mul_eq]
  split_ifs <;> omega

theorem totalBytesFor_single_mono (w d0 : Nat) :
    totalBytesFor w [d0] ≤ totalBytesFor w [d0 + 1] := by
  rw [totalBytesFor_eq_ceil, totalBytesFor_eq_ceil]
  simp only [List.prod_cons, List.prod_nil, Nat.mul_one]
  apply Nat.div_le_div_right
  have hm : w * d0 ≤ w * (d0 + 1) := Nat.mul_le_mul (Nat.le_refl w) (by omega)
  omega

/-- `append` on a 1-D array is exactly: extend the buffer with zero bytes to
the byte count for one more element, bump the dimension, and `set(-1, value)`.
This is the source's lines 117–128 in closed form. -/
theorem append_eq (a : BitPackingArray) (d0 : Nat) (v : Int)
    (hdims : a.dimensions = [d0]) :
    a.append v =
      BitPackingArray.set
        ⟨a.bits_per_index, [d0 + 1],
         a._array ++ List.replicate
           (totalBytesFor a.bits_per_index [d0 + 1] - a._array.length) 0⟩
        [-1] v := by
  unfold append
  rw [hdims]
  rw [if_neg (by simp)]
  rfl

theorem append_dims (a : BitPackingArray) (d0 : Nat) (v : Int)
    (hdims : a.dimensions = [d0]) : (a.append v).2.dimensions = [d0 + 1] := by
  rw [append_eq a d0 v hdims, (set_dims_bits _ _ _).1]

theorem append_bits (a : BitPackingArray) (d0 : Nat) (v : Int)
    (hdims : a.dimensions = [d0]) :
    (a.append v).2.bits_per_index = a.bits_per_index := by
  rw [append_eq a d0 v hdims, (set_dims_bits _ _ _).2]

theorem append_length (a : BitPackingArray) (d0 : Nat) (v : Int)
    (hdims : a.dimensions = [d0]) (hinv : lenInvariant a) :
    (a.append v).2._array.length = totalBytesFor a.bits_per_index [d0 + 1] := by
  rw [append_eq a d0 v hdims, set_array_length]
  simp only [List.length_append, List.length_replicate]
  have hmono := totalBytesFor_single_mono a.bits_per_index d0
  have hlen : a._array.length = totalBytesFor a.bits_per_index [d0] := by
    rw [hinv, hdims]
  omega

/-- C5.  `len(storage) = ceil(bits_per_index * product(dimensions) / 8)`
(the code's `total_bytes` formula, proved equal to that ceiling in the first
conjunct) holds after construction and is preserved by `set`, `zero_bytes` and
`append`; `get` returns only a value and by its type cannot change the state.
The final conjunct is the spec's example: width 3, dimensions (5,) allocates
a 2-byte buffer. -/
theorem length_invariant_preserved :
    (∀ (w : Nat) (ds : List Nat), totalBytesFor w ds = (w * ds.prod + 7) / 8)
    ∧ (∀ (dims : List Nat) (w : Nat) (a0 : BitPackingArray),
        init dims w = .ok a0 → lenInvariant a0)
    ∧ (∀ (a : BitPackingArray) (p : List Int) (v : Int),
        lenInvariant a → lenInvariant (a.set p v).2)
    ∧ (∀ a : BitPackingArray, lenInvariant a → lenInvariant a.zero_bytes)
    ∧ (∀ (a : BitPackingArray) (d0 : Nat) (v : Int),
        a.dimensions = [d0] → lenInvariant a → lenInvariant (a.append v).2)
    ∧ (∀ a0 : BitPackingArray, init [5] 3 = .ok a0 → a0._array.length = 2) := by
  refine ⟨totalBytesFor_eq_ceil, ?_, ?_, ?_, ?_, ?_⟩
  · intro dims w a0 h
    unfold init at h
    split_ifs at h
    obtain rfl := (Except.ok.inj h).symm
    unfold lenInvariant
    exact List.length_replicate ..
  · intro a p v h
    unfold lenInvariant at h ⊢
    rw [set_array_length, (set_dims_bits a p v).1, (set_dims_bits a p v).2, h]
  · intro a h
    unfold lenInvariant at h ⊢
    simpa [zero_bytes] using h
  · intro a d0 v hdims h
    unfold lenInvariant
    rw [append_length a d0 v hdims h, append_dims a d0 v hdims, append_bits a d0 v hdims]
  · intro a0 h
    obtain rfl := (Except.ok.inj h).symm
    rfl

/-- Witness for `length_invariant_preserved` at the spec's example. -/
theorem length_invariant_preserved_witness :
    init [5] 3 = .ok (⟨3, [5], [0, 0]⟩ : BitPackingArray)
    ∧ (⟨3, [5], [0, 0]⟩ : BitPackingArray)._array.length = 2 :=
  ⟨rfl, length_invariant_preserved.2.2.2.2.2 ⟨3, [5], [0, 0]⟩ rfl⟩

/-! ### Boundedness and purity of `get` -/

/-- C10.  `get` is a pure read — its Lean type returns only the decoded value,
mirroring that the source's `get` never assigns to `self._array` or
`self.dimensions` — and its result is always bounded: for any byte contents
(every cell at most 255, the `bytearray` type guarantee), a successful `get`
returns a value below `2^bits_per_index`. -/
theorem get_pure_bounded (a : BitPackingArray) (p : List Int) (x : Nat)
    (hb : bytesValid a._array) (h : a.get p = .ok x) :
    x < 2 ^ a.bits_per_index := by
  unfold get at h
  cases hg : _get_actual_position a p with
  | error e => rw [hg] at h; exact absurd h (by simp)
  | ok addr =>
    rcases addr with ⟨i, s⟩
    rw [hg] at h
    obtain rfl := (Except.ok.inj h).symm
    exact read_span_bound i s a.bits_per_index hb

/-- Witness for `get_pure_bounded`: an all-ones buffer still reads back 7 on a
3-bit array, and 7 is below `2^3`. -/
theorem get_pure_bounded_witness :
    BitPackingArray.get ⟨3, [5], [255, 255]⟩ [0] = .ok 7 ∧ (7 : Nat) < 2 ^ 3 :=
  ⟨by decide, get_pure_bounded ⟨3, [5], [255, 255]⟩ [0] 7 (by decide) (by decide)⟩

/-! ### `append`: growth, the spec example, and non-atomic validation -/

theorem bitGet_nil (n : Nat) : bitGet [] n = false := by
  have hz : ([] : List Nat).getD (n / 8) 0 = 0 := rfl
  rw [bitGet_eq_testBit, hz]
  exact Nat.zero_testBit _

theorem bitGet_append_replicate_zero (arr : List Nat) (k n : Nat) :
    bitGet (arr ++ List.replicate k 0) n
      = if n / 8 < arr.length then bitGet arr n else false := by
  unfold bitGet
  by_cases h : n / 8 < arr.length
  · rw [if_pos h]
    congr 1
    rw [List.getD_eq_getElem?_getD, List.getD_eq_getElem?_getD,
        List.getElem?_append_left h]
  · rw [if_neg h]
    rw [List.getD_eq_getElem?_getD, List.getElem?_append_right (by omega)]
    rcases Nat.lt_or_ge (n / 8 - arr.length) k with hk | hk
    · rw [List.getElem?_replicate_of_lt hk]
      exact Nat.zero_testBit _
    · rw [List.getElem?_eq_none (by simp only [List.length_replicate]; omega)]
      exact Nat.zero_testBit _

/-- C8.  `append`: on an array with more than one dimension it raises
`UnsupportedShapeError` with the state untouched; on a 1-D array it is exactly
"zero-extend the buffer to the byte count for `dimensions[0] + 1` elements
(never shrinking — the new buffer is the old one plus zero bytes; exactly the
required byte count when the length invariant held), increment the dimension,
then `set(-1, value)`"; and the spec's example holds literally: from a
length-3 5-bit array holding 9, 20, 31, `append(17)` yields dimensions (4,),
`get(3) = 17`, and elements 0–2 unchanged. -/
theorem append_spec (a : BitPackingArray) (v : Int) :
    (1 < a.dimensions.length → a.append v = (some .unsupportedShape, a))
    ∧ (∀ d0, a.dimensions = [d0] →
        a.append v =
          BitPackingArray.set
            ⟨a.bits_per_index, [d0 + 1],
             a._array ++ List.replicate
               (totalBytesFor a.bits_per_index [d0 + 1] - a._array.length) 0⟩
            [-1] v
        ∧ (a.append v).2.dimensions = [d0 + 1]
        ∧ (lenInvariant a →
            (a.append v).2._array.length = totalBytesFor a.bits_per_index [d0 + 1]))
    ∧ (∀ e3 : BitPackingArray,
        e3 = ((((BitPackingArray.mk 5 [3] [0, 0]).set [0] 9).2.set [1] 20).2.set [2] 31).2 →
        (e3.append 17).2.dimensions = [4]
        ∧ (e3.append 17).2.get [3] = .ok 17
        ∧ (e3.append 17).2.get [0] = e3.get [0]
        ∧ (e3.append 17).2.get [1] = e3.get [1]
        ∧ (e3.append 17).2.get [2] = e3.get [2]
        ∧ e3.get [0] = .ok 9 ∧ e3.get [1] = .ok 20 ∧ e3.get [2] = .ok 31) := by
  refine ⟨?_, ?_, ?_⟩
  · intro h
    unfold append
    rw [if_pos h]
  · intro d0 h
    exact ⟨append_eq a d0 v h, append_dims a d0 v h,
      fun hinv => append_length a d0 v h hinv⟩
  · intro e3 h
    subst h
    decide

/-- Witness for `append_spec`: the multi-dimensional error on a 2×2 array and
the dimension bump on a fresh 1-D array. -/
theorem append_spec_witness :
    BitPackingArray.append ⟨4, [2, 2], [0, 0]⟩ 1
      = (some .unsupportedShape, ⟨4, [2, 2], [0, 0]⟩)
    ∧ (BitPackingArray.append ⟨5, [3], [0, 0]⟩ 17).2.dimensions = [4] :=
  ⟨(append_spec ⟨4, [2, 2], [0, 0]⟩ 1).1 (by decide),
   ((append_spec ⟨5, [3], [0, 0]⟩ 17).2.1 3 rfl).2.1⟩

/-- C9.  `append` is not atomic on value validation: called with an
out-of-range value on a 1-D array, the dimension increment and buffer
extension happen before the value check inside `set`, so `ValueOutOfRange`
is raised with the array left grown — `dimensions[0]` has increased by 1, the
buffer is the old one extended with zero bytes — and, whenever the bits at
and beyond the old elements' end were zero (as after construction and
in-range writes), the new last slot reads as 0. -/
theorem append_invalid_value_grows (a : BitPackingArray) (d0 : Nat) (v : Int)
    (hdims : a.dimensions = [d0])
    (hv : ((1 <<< a.bits_per_index : Nat) : Int) - 1 < v ∨ v < 0) :
    (a.append v).1 = some (.valueOutOfRange ((1 <<< a.bits_per_index) - 1))
    ∧ (a.append v).2.dimensions = [d0 + 1]
    ∧ (a.append v).2._array =
        a._array ++ List.replicate
          (totalBytesFor a.bits_per_index [d0 + 1] - a._array.length) 0
    ∧ (bytesValid a._array →
        (∀ n, d0 * a.bits_per_index ≤ n → bitGet a._array n = false) →
        (a.append v).2.get [(d0 : Int)] = .ok 0) := by
  rw [append_eq a d0 v hdims]
  set ext := a._array ++ List.replicate
      (totalBytesFor a.bits_per_index [d0 + 1] - a._array.length) 0 with hext
  set A1 : BitPackingArray := ⟨a.bits_per_index, [d0 + 1], ext⟩ with hA1
  have hfire1 : (A1.set [-1] v).1
      = some (.valueOutOfRange ((1 <<< a.bits_per_index) - 1)) :=
    (set_value_check A1 [-1] v).1.mpr hv
  have hfire2 : (A1.set [-1] v).2 = A1 := (set_value_check A1 [-1] v).2 hv
  refine ⟨hfire1, by rw [hfire2], by rw [hfire2], ?_⟩
  intro hb hpad
  rw [hfire2]
  have hbext : bytesValid ext := by
    intro b hbm
    rcases List.mem_append.mp hbm with hmem | hmem
    · exact hb _ hmem
    · rw [List.eq_of_mem_replicate hmem]
      norm_num
  have hres : resolveAll 0 [(d0 : Int)] [d0 + 1] = .ok [d0] := by
    rw [resolveAll_cons]
    have h0 : (0 : Int) ≤ (d0 : Int) := Int.natCast_nonneg d0
    simp only [if_pos h0]
    rw [if_pos ⟨h0, by exact_mod_cast Nat.lt_succ_self d0⟩]
    simp only [Int.toNat_natCast]
    rfl
  rw [get_eq_read_span A1 [(d0 : Int)] [d0] rfl (by simp [hA1]) hres]
  refine congrArg Except.ok ?_
  show read_span ext (d0 * a.bits_per_index / 8) (d0 * a.bits_per_index % 8)
      a.bits_per_index = 0
  rw [← read_span_nil (d0 * a.bits_per_index / 8) (d0 * a.bits_per_index % 8)
        a.bits_per_index]
  apply read_span_congr _ _ _ (Nat.mod_lt _ (by norm_num)) hbext
    (fun b hbm => absurd hbm (List.not_mem_nil b))
  intro n h1 h2
  rw [bitGet_nil, bitGet_append_replicate_zero]
  split_ifs with hlt
  · apply hpad
    have e8 : 8 * (d0 * a.bits_per_index / 8) + d0 * a.bits_per_index % 8
        = d0 * a.bits_per_index := by omega
    omega
  · rfl

/-- Witness for `append_invalid_value_grows`: a length-3 5-bit array holding
9, 20, 31 (bytes 137, 126), appended with the out-of-range 100. -/
theorem append_invalid_value_grows_witness :
    (BitPackingArray.append ⟨5, [3], [137, 126]⟩ 100).1 = some (.valueOutOfRange 31)
    ∧ (BitPackingArray.append ⟨5, [3], [137, 126]⟩ 100).2.dimensions = [4]
    ∧ (BitPackingArray.append ⟨5, [3], [137, 126]⟩ 100).2._array = [137, 126, 0]
    ∧ (BitPackingArray.append ⟨5, [3], [137, 126]⟩ 100).2.get [3] = .ok 0 := by
  have h := append_invalid_value_grows ⟨5, [3], [137, 126]⟩ 3 100 rfl (by decide)
  have hpad : ∀ n, 3 * 5 ≤ n → bitGet [137, 126] n = false := by
    intro n hn
    unfold bitGet
    by_cases h2 : n / 8 < 2
    · have h15 : n = 15 := by omega
      subst h15
      decide
    · have hz : ([137, 126] : List Nat).getD (n / 8) 0 = 0 := by
        rw [List.getD_eq_getElem?_getD, List.getElem?_eq_none
          (by simp only [List.length_cons, List.length_nil]; omega)]
        rfl
      rw [hz]
      exact Nat.zero_testBit _
  exact ⟨h.1, h.2.1, by rw [h.2.2.1]; rfl, h.2.2.2 (by decide) hpad⟩

/-! ### Negative indexing and the `IndexOutOfRange` error -/

/-- The in-range test for one coordinate after negative-index resolution,
exactly as the code computes it: `pos` resolves to itself when nonnegative and
to `dim + pos` otherwise, and the resolved value must lie in `[0, dim)`. -/
def coordInRange (pos : Int) (dim : Nat) : Prop :=
  0 ≤ (if 0 ≤ pos then pos else (dim : Int) + pos)
  ∧ (if 0 ≤ pos then pos else (dim : Int) + pos) < (dim : Int)

instance (pos : Int) (dim : Nat) : Decidable (coordInRange pos dim) := by
  unfold coordInRange
  infer_instance

theorem resolveAll_error_at :
    ∀ (ps : List Int) (ds : List Nat) (depth j : Nat),
      j < ps.length → ps.length ≤ ds.length →
      (∀ m, m < j → coordInRange (ps.getD m 0) (ds.getD m 0)) →
      ¬ coordInRange (ps.getD j 0) (ds.getD j 0) →
      resolveAll depth ps ds
        = .error (.indexOutOfRange (depth + j) (ps.getD j 0) (ds.getD j 0)) := by
  intro ps
  induction ps with
  | nil =>
    intro ds depth j hj
    simp at hj
  | cons p ps ih =>
    intro ds depth j hj hlen hpre hbad
    cases ds with
    | nil => simp at hlen
    | cons d ds =>
      rw [resolveAll_cons]
      cases j with
      | zero =>
        simp only [List.getD_cons_zero] at hbad ⊢
        unfold coordInRange at hbad
        rw [if_neg hbad, Nat.add_zero]
      | succ j =>
        have hhead := hpre 0 (by omega)
        simp only [List.getD_cons_zero] at hhead
        unfold coordInRange at hhead
        rw [if_pos hhead]
        have hrec := ih ds (depth + 1) j (by simpa using hj)
          (by simpa using hlen)
          (fun m hm => by
            have h3 := hpre (m + 1) (by omega)
            simpa only [List.getD_cons_succ] using h3)
          (by simpa only [List.getD_cons_succ] using hbad)
        rw [hrec]
        simp only [List.getD_cons_succ]
        rw [show depth + 1 + j = depth + (j + 1) from by omega]

theorem gap_congr (a : BitPackingArray) (p q : List Int)
    (hlen : p.length = q.length)
    (hres : resolveAll 0 p a.dimensions = resolveAll 0 q a.dimensions) :
    _get_actual_position a p = _get_actual_position a q := by
  unfold _get_actual_position
  rw [hlen, hres]

theorem get_congr (a : BitPackingArray) (p q : List Int)
    (h : _get_actual_position a p = _get_actual_position a q) :
    a.get p = a.get q := by
  unfold get
  rw [h]

theorem set_congr (a : BitPackingArray) (p q : List Int) (v : Int)
    (h : _get_actual_position a p = _get_actual_position a q) :
    a.set p v = a.set q v := by
  unfold set
  rw [h]

/-- C7.  Negative indexing: a coordinate `pos < 0` resolves to
`dim_len + pos` (resolution of `pos` and of `dim_len + pos` coincide whenever
the latter is nonnegative), so on a 1-D array of length n, `get((-1,))`
equals `get((n-1,))` and likewise for `set`; and a position whose first
coordinate with out-of-range resolved value sits at index j makes
`_get_actual_position` — hence `get` and `set` — fail with `IndexOutOfRange`
carrying the dimension position j, the original requested value, and that
dimension's length. -/
theorem negative_indexing (a : BitPackingArray) :
    (∀ (n : Nat) (v : Int), a.dimensions = [n] → 1 ≤ n →
      a.get [-1] = a.get [(n : Int) - 1] ∧ a.set [-1] v = a.set [(n : Int) - 1] v)
    ∧ (∀ (depth : Nat) (pos : Int) (dim : Nat) (ps : List Int) (ds : List Nat),
        pos < 0 → 0 ≤ (dim : Int) + pos →
        resolveAll depth (pos :: ps) (dim :: ds)
          = resolveAll depth (((dim : Int) + pos) :: ps) (dim :: ds))
    ∧ (∀ (p : List Int) (j : Nat), p.length = a.dimensions.length → j < p.length →
        (∀ m, m < j → coordInRange (p.getD m 0) (a.dimensions.getD m 0)) →
        ¬ coordInRange (p.getD j 0) (a.dimensions.getD j 0) →
        _get_actual_position a p
          = .error (.indexOutOfRange j (p.getD j 0) (a.dimensions.getD j 0))) := by
  refine ⟨?_, ?_, ?_⟩
  · intro n v hdims hn
    have hres : resolveAll 0 [(-1 : Int)] a.dimensions
        = resolveAll 0 [(n : Int) - 1] a.dimensions := by
      rw [hdims, resolveAll_cons, resolveAll_cons]
      have h1 : ¬ (0 : Int) ≤ -1 := by omega
      have h2 : (0 : Int) ≤ (n : Int) - 1 := by omega
      simp only [if_neg h1, if_pos h2]
      rw [show (n : Int) + (-1) = (n : Int) - 1 from by ring]
      rw [if_pos ⟨h2, by omega⟩, if_pos ⟨h2, by omega⟩]
    have hgap := gap_congr a [-1] [(n : Int) - 1] rfl hres
    exact ⟨get_congr a _ _ hgap, set_congr a _ _ v hgap⟩
  · intro depth pos dim ps ds hneg hnn
    rw [resolveAll_cons, resolveAll_cons]
    have h1 : ¬ (0 : Int) ≤ pos := by omega
    simp only [if_neg h1, if_pos hnn]
    rw [if_pos ⟨hnn, by omega⟩, if_pos ⟨hnn, by omega⟩]
  · intro p j hlen hj hpre hbad
    unfold _get_actual_position
    rw [if_neg (by omega)]
    have herr := resolveAll_error_at p a.dimensions 0 j hj (by omega) hpre hbad
    simp only [Nat.zero_add] at herr
    rw [herr]

/-- Witness for `negative_indexing`: `get((-1,))` equals `get((4,))` on a 1-D
array of length 5, and the spec's literal error case — a 3×2 array accessed at
(3, 0) — reports dimension 0, requested value 3, length 3. -/
theorem negative_indexing_witness :
    BitPackingArray.get ⟨3, [5], [255, 255]⟩ [-1]
      = BitPackingArray.get ⟨3, [5], [255, 255]⟩ [4]
    ∧ BitPackingArray._get_actual_position ⟨4, [3, 2], [0, 0, 0]⟩ [3, 0]
      = .error (.indexOutOfRange 0 3 3) :=
  ⟨((negative_indexing ⟨3, [5], [255, 255]⟩).1 5 0 rfl (by decide)).1,
   (negative_indexing ⟨4, [3, 2], [0, 0, 0]⟩).2.2 [3, 0] 0 (by decide) (by decide)
     (fun m hm => absurd hm (Nat.not_lt_zero m)) (by decide)⟩

/-! ### Row-major addressing matches the spec's fold -/

theorem getD_succ_eq_tail_getD (l : List Nat) (i : Nat) :
    l.getD (i + 1) 0 = l.tail.getD i 0 := by
  cases l with
  | nil => rfl
  | cons x xs => rw [List.getD_cons_succ]; rfl

/-- The linear element index exactly as the spec words it: start from the
first resolved coordinate and, for each subsequent dimension `i` (starting at
1), `element_index = element_index * dimensions[i] + resolved_position[i]`. -/
def specElementIndex (resolved dimensions : List Nat) : Nat :=
  match resolved with
  | [] => 0
  | r0 :: rest =>
    (List.range rest.length).foldl
      (fun acc i => acc * dimensions.getD (i + 1) 0 + rest.getD i 0) r0

theorem foldl_range_eq_accumulate :
    ∀ (rest ds : List Nat) (init : Nat), rest.length ≤ ds.length →
      (List.range rest.length).foldl
          (fun acc i => acc * ds.getD i 0 + rest.getD i 0) init
        = accumulate init rest ds := by
  intro rest
  induction rest with
  | nil =>
    intro ds init _
    rfl
  | cons x rest ih =>
    intro ds init hlen
    cases ds with
    | nil => simp at hlen
    | cons d ds =>
      rw [List.length_cons, List.range_succ_eq_map, List.foldl_cons, List.foldl_map]
      simp only [List.getD_cons_zero]
      rw [show (fun (acc i : Nat) =>
            acc * (d :: ds).getD (i + 1) 0 + (x :: rest).getD (i + 1) 0)
          = fun (acc i : Nat) => acc * ds.getD i 0 + rest.getD i 0 from by
        funext acc i
        rw [List.getD_cons_succ, List.getD_cons_succ]]
      rw [ih ds (init * d + x) (by simpa using hlen)]
      rfl

theorem specElementIndex_eq_linearIndex (rs dims : List Nat)
    (h : rs.length = dims.length) :
    specElementIndex rs dims = linearIndex rs dims := by
  cases rs with
  | nil => rfl
  | cons r rest =>
    simp only [specElementIndex, linearIndex]
    rw [show (fun (acc i : Nat) => acc * dims.getD (i + 1) 0 + rest.getD i 0)
        = fun (acc i : Nat) => acc * dims.tail.getD i 0 + rest.getD i 0 from by
      funext acc i
      rw [getD_succ_eq_tail_getD]]
    apply foldl_range_eq_accumulate
    cases dims with
    | nil => simp at h
    | cons d ds =>
      simp only [List.length_cons] at h
      simp only [List.tail_cons]
      omega

/-- C6.  Row-major addressing: with correct arity and every coordinate in
range, `_get_actual_position` returns exactly the byte and bit offsets
`(E * bits_per_index / 8, E * bits_per_index % 8)` where `E` is the spec's
fold — starting from the first resolved coordinate, `element_index =
element_index * dimensions[i] + resolved_position[i]` for each subsequent
dimension — and each resolved coordinate follows the negative-index
resolution rule. -/
theorem row_major_addressing (a : BitPackingArray) (p : List Int) (rs : List Nat)
    (hd : a.dimensions ≠ [])
    (hl : p.length = a.dimensions.length)
    (hr : resolveAll 0 p a.dimensions = .ok rs) :
    _get_actual_position a p
      = .ok (specElementIndex rs a.dimensions * a.bits_per_index / 8,
             specElementIndex rs a.dimensions * a.bits_per_index % 8)
    ∧ ∀ j, j < rs.length →
        (rs.getD j 0 : Int)
          = (if 0 ≤ p.getD j 0 then p.getD j 0
             else (a.dimensions.getD j 0 : Int) + p.getD j 0) := by
  have hlen : rs.length = a.dimensions.length := by
    have := resolveAll_ok_length p a.dimensions rs 0 hr
    omega
  rw [specElementIndex_eq_linearIndex rs a.dimensions hlen]
  exact ⟨gap_ok a p rs hl hd hr, resolveAll_ok_getD p a.dimensions rs 0 hr⟩

/-- Witness for `row_major_addressing`: on a 3×2 4-bit array, coordinate
(2, 1) is element 2*2+1 = 5, bit 20, i.e. byte 2, bit 4. -/
theorem row_major_addressing_witness :
    BitPackingArray._get_actual_position ⟨4, [3, 2], [0, 0, 0]⟩ [2, 1] = .ok (2, 4)
    ∧ ((2 : Nat) : Int) = if 0 ≤ (2 : Int) then (2 : Int) else ((3 : Nat) : Int) + 2 :=
  ⟨(row_major_addressing ⟨4, [3, 2], [0, 0, 0]⟩ [2, 1] [2, 1] (by decide) (by decide)
      (by decide)).1,
   (row_major_addressing ⟨4, [3, 2], [0, 0, 0]⟩ [2, 1] [2, 1] (by decide) (by decide)
      (by decide)).2 0 (by decide)⟩

end BitPackingArray

end BitPacking

